import Mathlib

/-!
# FreeNOS `CoreServer`: multiprocessor bring-up

A shallow embedding of `server/core/CoreServer.cpp` (`bootCore`, `discover`,
`setupChannels`) together with the properties of its memory partitioning,
boot sequence and channel layout.

Machine words (`Size`, `Address`, `uint`) are natural numbers reduced modulo
the word modulus of the architecture after every `+`, `-` and `*`.
The kernel primitives (`VMCtl`, `VMCopy`, `IntelMP::boot`) are an arbitrary
environment whose answers may depend on the whole history of calls.
-/

namespace FreeNOS

/-! ## Architecture constants and machine arithmetic -/

/-- The constants that `CoreServer.cpp` takes from headers outside this file:
`PAGESIZE`, the modulus of the unsigned machine word (`Size`, `Address`,
`uint`), `KERNEL_PATHLEN` and `sizeof(CoreMessage)`. -/
structure Arch where
  PAGESIZE : Nat
  wordMod : Nat
  KERNEL_PATHLEN : Nat
  sizeofCoreMessage : Nat
deriving DecidableEq, Repr

/-- The 32-bit Intel configuration: 4 KiB pages, 32-bit words. -/
def intel : Arch :=
  { PAGESIZE := 4096, wordMod := 4294967296, KERNEL_PATHLEN := 64, sizeofCoreMessage := 12 }

/-- Modelled from the spec: the `MegaByte(v)` macro is declared outside
`CoreServer.cpp`; the spec reads `MegaByte(4)` as 4 MiB, that is
`v * 1024 * 1024` bytes. -/
def MegaByte (v : Nat) : Nat := v * 1024 * 1024

/-- Reduction of an exact value to a machine word. -/
def Arch.wrap (a : Arch) (x : Nat) : Nat := x % a.wordMod

/-- Unsigned machine subtraction `x - y` of two words. -/
def Arch.wsub (a : Arch) (x y : Nat) : Nat :=
  (x + (a.wordMod - y % a.wordMod)) % a.wordMod

/-! ## Data model -/

/-- The access flags of a `Memory::Range` that the server sets. -/
structure Access where
  readable : Bool
  writable : Bool
  user : Bool
deriving DecidableEq, Repr

/-- The value `Memory::Readable | Memory::Writable | Memory::User`. -/
def Access.rwu : Access := { readable := true, writable := true, user := true }

/-- The all-zero flags left by `MemoryBlock::set(info, 0, sizeof(CoreInfo))`. -/
def Access.zero : Access := { readable := false, writable := false, user := false }

/-- A `Memory::Range`. -/
structure Range where
  phys : Nat
  virt : Nat
  size : Nat
  access : Access
deriving DecidableEq, Repr

/-- The byte addresses `[phys, phys + size)` covered by a range. -/
def Range.covers (r : Range) (x : Nat) : Prop := r.phys ≤ x ∧ x < r.phys + r.size

instance (r : Range) (x : Nat) : Decidable (r.covers x) := by
  unfold Range.covers; infer_instance

/-- A `MemoryRegion` of the kernel executable; `data` is the address of the
source bytes. -/
structure MemoryRegion where
  virtualAddress : Nat
  size : Nat
  data : Nat
deriving DecidableEq, Repr

/-- The fields of `SystemInformation` that `CoreServer.cpp` reads. -/
structure SystemInformation where
  coreId : Nat
  memorySize : Nat
  bootImageAddress : Nat
  bootImageSize : Nat
  coreChannelAddress : Nat
  timerCounter : Nat
deriving DecidableEq, Repr

/-- The boot descriptor `CoreInfo` of one core. -/
structure CoreInfo where
  coreId : Nat
  memory : Range
  kernel : Range
  bootImageAddress : Nat
  bootImageSize : Nat
  coreChannelAddress : Nat
  coreChannelSize : Nat
  kernelEntry : Nat
  timerCounter : Nat
  kernelCommand : List Char
deriving DecidableEq, Repr

/-- The result codes of `CoreServer::Result` used by the server. -/
inductive Result where
  | Success
  | NotFound
  | ExecError
  | OutOfMemory
  | MemoryError
  | BootError
  | IOError
deriving DecidableEq, Repr

/-- The static member `CoreServer::kernelPath`. -/
def kernelPath : List Char := "/boot/kernel".toList

/-- The C library call `strlcpy(dst, src, n)`: at most `n - 1` characters of
`src` are stored. -/
def strlcpy (src : List Char) (n : Nat) : List Char := src.take (n - 1)

/-! ## `discover`: the memory split-up (lines 219-221 and 236-251) -/

/-- The value of `memPerCore` after lines 219-221 of `discover`, for a
system memory size `memorySize` and `count = cores.count()`. -/
def memPerCore (a : Arch) (memorySize count : Nat) : Nat :=
  let memPerCore := memorySize / count
  let memPerCore := memPerCore / MegaByte 4
  a.wrap (memPerCore * MegaByte 4)

/-- The `CoreInfo` filled in by lines 236-251 of `discover` for `coreId`. -/
def makeCoreInfo (a : Arch) (sysInfo : SystemInformation) (kernelEntry : Nat)
    (memPerCore coreId : Nat) : CoreInfo :=
  let memoryPhys := a.wrap (memPerCore * coreId)
  let memorySize := a.wsub memPerCore a.PAGESIZE
  let kernelPhys := memoryPhys
  let kernelSize := a.wrap (MegaByte 4)
  let bootImageAddress := a.wrap (kernelPhys + kernelSize)
  let bootImageSize := sysInfo.bootImageSize
  let coreChannelAddress := a.wrap (bootImageAddress + bootImageSize)
  let coreChannelAddress :=
    a.wrap (coreChannelAddress + a.wsub a.PAGESIZE (bootImageSize % a.PAGESIZE))
  { coreId := coreId
    memory := { phys := memoryPhys, virt := 0, size := memorySize, access := Access.zero }
    kernel := { phys := kernelPhys, virt := 0, size := kernelSize, access := Access.zero }
    bootImageAddress := bootImageAddress
    bootImageSize := bootImageSize
    coreChannelAddress := coreChannelAddress
    coreChannelSize := a.wrap (a.PAGESIZE * 4)
    kernelEntry := kernelEntry
    timerCounter := sysInfo.timerCounter
    kernelCommand := strlcpy kernelPath a.KERNEL_PATHLEN }

/-! ## The kernel primitives as an environment -/

/-- Modelled from the spec: the value of `API::Success` (declared outside
`CoreServer.cpp`); a primitive answers ok or fail, and line 153 tests the
`Map` call against the literal `0` where the other calls are tested against
`API::Success`, so ok is the zero code. -/
def API.Success : Nat := 0

/-- Modelled from the spec: the value of `IntelMP::Success` (declared outside
`CoreServer.cpp`); the boot signal answers ok or fail, ok being the first
enumerator. -/
def IntelMP.Success : Nat := 0

/-- One call of a kernel primitive together with the answer it gave. -/
inductive Event where
  /-- The call `VMCtl(SELF, RemoveMem, &r)` and its result code. -/
  | removeMem (r : Range) (ret : Nat)
  /-- The call `VMCtl(SELF, Map, &r)`, its result code and the virtual address
  it stored in `r.virt`. -/
  | map (r : Range) (ret : Nat) (virt : Nat)
  /-- The call `VMCopy(SELF, API::Write, src, dst, size)` and its return value. -/
  | copy (src dst size : Nat) (ret : Nat)
  /-- The call `VMCtl(SELF, UnMap, &r)` and its result code. -/
  | unmap (r : Range) (ret : Nat)
  /-- The call `m_cores.boot(info)` and its result code. -/
  | boot (info : CoreInfo) (ret : Nat)
deriving DecidableEq, Repr

/-- The kernel and the multiprocessor hardware: every answer may depend on
the full history of earlier calls and on the arguments of the call. -/
structure Env where
  vmctlRemoveMem : List Event → Range → Nat
  vmctlMap : List Event → Range → Nat × Nat
  vmCopy : List Event → Nat → Nat → Nat → Nat
  vmctlUnMap : List Event → Range → Nat
  boot : List Event → CoreInfo → Nat

/-! ## `bootCore` (lines 124-208) -/

/-- The loop of lines 143-174 over the kernel regions `regions[0..m_numRegions)`.
The history `h` holds the calls made so far; the result is `some r` when the
loop body executes `return r`, `none` when the loop runs to its end, together
with the calls made by the loop. -/
def bootRegions (a : Arch) (env : Env) (info : CoreInfo) :
    List MemoryRegion → List Event → Option Result × List Event
  | [], _ => (none, [])
  | region :: rest, h =>
    let range : Range :=
      { phys := a.wrap (info.memory.phys + region.virtualAddress)
        virt := 0
        size := region.size
        access := Access.rwu }
    let m := env.vmctlMap h range
    let e1 := Event.map range m.1 m.2
    if m.1 ≠ 0 then (some Result.OutOfMemory, [e1]) else
    let range := { range with virt := m.2 }
    let r := env.vmCopy (h ++ [e1]) region.data range.virt region.size
    let e2 := Event.copy region.data range.virt region.size r
    if r ≠ region.size then (some Result.MemoryError, [e1, e2]) else
    let u := env.vmctlUnMap (h ++ [e1, e2]) range
    let e3 := Event.unmap range u
    if u ≠ API.Success then (some Result.MemoryError, [e1, e2, e3]) else
    let out := bootRegions a env info rest (h ++ [e1, e2, e3])
    (out.1, [e1, e2, e3] ++ out.2)

/-- Lines 176-207 of `bootCore`: the boot image is mapped, copied and
unmapped, then the core is signalled (`INTEL` is defined, as it is whenever
`discover` calls `bootCore`). -/
def bootImageAndSignal (env : Env) (sysInfo : SystemInformation) (info : CoreInfo)
    (h : List Event) : Result × List Event :=
  let range : Range :=
    { phys := info.bootImageAddress
      virt := 0
      size := info.bootImageSize
      access := Access.rwu }
  let m := env.vmctlMap h range
  let e1 := Event.map range m.1 m.2
  if m.1 ≠ API.Success then (Result.OutOfMemory, [e1]) else
  let range := { range with virt := m.2 }
  let r := env.vmCopy (h ++ [e1]) sysInfo.bootImageAddress range.virt sysInfo.bootImageSize
  let e2 := Event.copy sysInfo.bootImageAddress range.virt sysInfo.bootImageSize r
  if r ≠ sysInfo.bootImageSize then (Result.MemoryError, [e1, e2]) else
  let u := env.vmctlUnMap (h ++ [e1, e2]) range
  let e3 := Event.unmap range u
  if u ≠ API.Success then (Result.MemoryError, [e1, e2, e3]) else
  let b := env.boot (h ++ [e1, e2, e3]) info
  let e4 := Event.boot info b
  if b ≠ IntelMP.Success then (Result.BootError, [e1, e2, e3, e4]) else
  (Result.Success, [e1, e2, e3, e4])

/-- The function `CoreServer::bootCore(coreId, info, regions)`, started after
the calls `h`; `regions` is `regions[0..m_numRegions)` and `sysInfo` the
`SystemInformation` constructed at line 127. It yields the returned result
and the calls it made, in order. The `DEBUG`, `ERROR` and `NOTICE` lines
write to the log only. -/
def bootCore (a : Arch) (env : Env) (sysInfo : SystemInformation) (_coreId : Nat)
    (info : CoreInfo) (regions : List MemoryRegion) (h : List Event) :
    Result × List Event :=
  let c := env.vmctlRemoveMem h info.memory
  let e0 := Event.removeMem info.memory c
  if c ≠ API.Success then (Result.OutOfMemory, [e0]) else
  let loop := bootRegions a env info regions (h ++ [e0])
  match loop.1 with
  | some r => (r, e0 :: loop.2)
  | none =>
    let rest := bootImageAndSignal env sysInfo info (h ++ e0 :: loop.2)
    (rest.1, e0 :: loop.2 ++ rest.2)

/-! ## `Index`, `discover` (lines 211-258) -/

/-- Modelled from the spec: the container `Index<T>` is declared outside
`CoreServer.cpp`. The spec describes it as a mapping from core id to item,
keys unique, created with a size; `slot p` is the item stored under the key
`p`, `none` when nothing was inserted there (the null pointer returned by
`get`). -/
structure Index (T : Type) where
  size : Nat
  slot : Nat → Option T

/-- The constructor `Index<T>(size)`: no key is occupied. -/
def Index.new {T : Type} (size : Nat) : Index T := { size := size, slot := fun _ => none }

/-- The call `insert(position, item)`. -/
def Index.insert {T : Type} (idx : Index T) (position : Nat) (item : T) : Index T :=
  { idx with slot := fun p => if p = position then some item else idx.slot p }

/-- The call `get(position)`. -/
def Index.get {T : Type} (idx : Index T) (position : Nat) : Option T := idx.slot position

/-- What a run of `discover` leaves behind. -/
structure Discovered where
  /-- The returned result. -/
  result : Result
  /-- The member `m_coreInfo`. -/
  coreInfo : Index CoreInfo
  /-- The calls of kernel primitives made by the run, in order. -/
  events : List Event
  /-- The calls of `bootCore` made by the run, in order: the core id passed and
  the result that came back (which `discover` discards). -/
  boots : List (Nat × Result)

/-- The loop of lines 230-255 over the list of discovered cores. The
`CoreInfo` is inserted by reference at line 237 and filled in afterwards, so
the index holds the filled-in record. The boot image location and size are
fixed at boot, so the `SystemInformation` that `bootCore` constructs at line
127 is the `sysInfo` of line 214. -/
def discoverLoop (a : Arch) (env : Env) (sysInfo : SystemInformation) (kernelEntry : Nat)
    (regions : List MemoryRegion) (memPerCore : Nat) :
    List Nat → List Event → Index CoreInfo → Index CoreInfo × List Event × List (Nat × Result)
  | [], _, idx => (idx, [], [])
  | coreId :: rest, h, idx =>
    if coreId ≠ 0 then
      let info := makeCoreInfo a sysInfo kernelEntry memPerCore coreId
      let idx := idx.insert coreId info
      let b := bootCore a env sysInfo coreId info regions h
      let out := discoverLoop a env sysInfo kernelEntry regions memPerCore rest (h ++ b.2) idx
      (out.1, b.2 ++ out.2.1, (coreId, b.1) :: out.2.2)
    else
      discoverLoop a env sysInfo kernelEntry regions memPerCore rest h idx

/-- Lines 219-257 of `discover`, once `cores.count()` is known to be non-zero:
the memory split-up, the allocation of `m_coreInfo` and the boot loop. -/
def discoverBody (a : Arch) (env : Env) (sysInfo : SystemInformation) (kernelEntry : Nat)
    (regions : List MemoryRegion) (cores : List Nat) (h : List Event) : Discovered :=
  let memPerCore := memPerCore a sysInfo.memorySize cores.length
  let out := discoverLoop a env sysInfo kernelEntry regions memPerCore cores h
    (Index.new cores.length)
  { result := Result.Success, coreInfo := out.1, events := out.2.1, boots := out.2.2 }

/-- The function `CoreServer::discover()` with `INTEL` defined, on the master:
`cores` is the list returned by `m_cores.getCores()`, `kernelEntry` is
`m_kernel->entry()` and `regions` is `m_regions[0..m_numRegions)`. The
result is `none` when `cores` is empty: line 219 then divides by zero. -/
def discover (a : Arch) (env : Env) (sysInfo : SystemInformation) (kernelEntry : Nat)
    (regions : List MemoryRegion) (cores : List Nat) (h : List Event) : Option Discovered :=
  if cores.length = 0 then none
  else some (discoverBody a env sysInfo kernelEntry regions cores h)

/-! ## `setupChannels` (lines 260-306) -/

/-- The two modes of a `Channel`. -/
inductive ChannelMode where
  | Producer
  | Consumer
deriving DecidableEq, Repr

/-- The settings of a `MemoryChannel` made by `setMode`, `setMessageSize`,
`setData` and `setFeedback`. -/
structure MemoryChannel where
  mode : ChannelMode
  messageSize : Nat
  data : Nat
  feedback : Nat
deriving DecidableEq, Repr

/-- The channel members of the server after `setupChannels`. -/
structure Channels where
  toSlave : Index MemoryChannel
  fromSlave : Index MemoryChannel
  toMaster : Option MemoryChannel
  fromMaster : Option MemoryChannel

/-- The loop of lines 272-288 for the values `i` of the list, in order. The
result is `none` when `m_coreInfo->get(i)` is the null pointer, which lines
278-286 dereference. -/
def setupLoop (a : Arch) (coreInfo : Index CoreInfo) :
    List Nat → Index MemoryChannel → Index MemoryChannel →
      Option (Index MemoryChannel × Index MemoryChannel)
  | [], toSlave, fromSlave => some (toSlave, fromSlave)
  | i :: rest, toSlave, fromSlave =>
    match coreInfo.get i with
    | none => none
    | some info =>
      let ch : MemoryChannel :=
        { mode := ChannelMode.Producer
          messageSize := a.sizeofCoreMessage
          data := a.wrap (info.coreChannelAddress + a.wrap (a.PAGESIZE * 2))
          feedback := a.wrap (info.coreChannelAddress + a.wrap (a.PAGESIZE * 3)) }
      let toSlave := toSlave.insert i ch
      let ch : MemoryChannel :=
        { mode := ChannelMode.Consumer
          messageSize := a.sizeofCoreMessage
          data := info.coreChannelAddress
          feedback := a.wrap (info.coreChannelAddress + a.PAGESIZE) }
      let fromSlave := fromSlave.insert i ch
      setupLoop a coreInfo rest toSlave fromSlave

/-- The function `CoreServer::setupChannels()` with `INTEL` defined: `info` is
the `SystemInformation` of the calling core, `coreInfo` the member
`m_coreInfo` and `numCores` the value of `m_cores.getCores().count()`. The
loop variable `i` takes the values `1, ..., numCores - 1`. The members that
a branch does not assign are shown empty. -/
def setupChannels (a : Arch) (info : SystemInformation) (coreInfo : Index CoreInfo)
    (numCores : Nat) : Option (Result × Channels) :=
  if info.coreId = 0 then
    match setupLoop a coreInfo (List.range' 1 (numCores - 1))
        (Index.new numCores) (Index.new numCores) with
    | none => none
    | some (toSlave, fromSlave) =>
      some (Result.Success,
        { toSlave := toSlave, fromSlave := fromSlave, toMaster := none, fromMaster := none })
  else
    let toMaster : MemoryChannel :=
      { mode := ChannelMode.Producer
        messageSize := a.sizeofCoreMessage
        data := info.coreChannelAddress
        feedback := a.wrap (info.coreChannelAddress + a.PAGESIZE) }
    let fromMaster : MemoryChannel :=
      { mode := ChannelMode.Consumer
        messageSize := a.sizeofCoreMessage
        data := a.wrap (info.coreChannelAddress + a.wrap (a.PAGESIZE * 2))
        feedback := a.wrap (info.coreChannelAddress + a.wrap (a.PAGESIZE * 3)) }
    some (Result.Success,
      { toSlave := Index.new 0, fromSlave := Index.new 0
        toMaster := some toMaster, fromMaster := some fromMaster })

/-! ## Basic facts of machine arithmetic -/

theorem wrap_of_lt (a : Arch) {x : Nat} (h : x < a.wordMod) : a.wrap x = x :=
  Nat.mod_eq_of_lt h

theorem wsub_of_le (a : Arch) {x y : Nat} (hyx : y ≤ x) (hx : x < a.wordMod) :
    a.wsub x y = x - y := by
  unfold Arch.wsub
  have hy : y < a.wordMod := lt_of_le_of_lt hyx hx
  rw [Nat.mod_eq_of_lt hy]
  have h1 : x + (a.wordMod - y) = (x - y) + a.wordMod := by omega
  rw [h1, Nat.add_mod_right]
  exact Nat.mod_eq_of_lt (by omega)

theorem memPerCore_exact (a : Arch) (M N : Nat) (hM : M < a.wordMod) :
    memPerCore a M N = M / N / MegaByte 4 * MegaByte 4 := by
  unfold memPerCore
  apply wrap_of_lt
  have h1 : M / N / MegaByte 4 * MegaByte 4 ≤ M / N := Nat.div_mul_le_self _ _
  have h2 : M / N ≤ M := Nat.div_le_self _ _
  omega

theorem megaByte_four : MegaByte 4 = 4194304 := by decide

/-- The fields of a generated `CoreInfo` when no address computation wraps. -/
theorem makeCoreInfo_exact (a : Arch) (sys : SystemInformation) (entry mpc k : Nat)
    (hP : 0 < a.PAGESIZE)
    (hfit : mpc * k + MegaByte 4 + sys.bootImageSize
      + (a.PAGESIZE - sys.bootImageSize % a.PAGESIZE) + 4 * a.PAGESIZE ≤ a.wordMod) :
    (makeCoreInfo a sys entry mpc k).memory.phys = mpc * k ∧
    (makeCoreInfo a sys entry mpc k).kernel.phys = mpc * k ∧
    (makeCoreInfo a sys entry mpc k).kernel.size = MegaByte 4 ∧
    (makeCoreInfo a sys entry mpc k).bootImageAddress = mpc * k + MegaByte 4 ∧
    (makeCoreInfo a sys entry mpc k).bootImageSize = sys.bootImageSize ∧
    (makeCoreInfo a sys entry mpc k).coreChannelAddress =
      mpc * k + MegaByte 4 + sys.bootImageSize
        + (a.PAGESIZE - sys.bootImageSize % a.PAGESIZE) ∧
    (makeCoreInfo a sys entry mpc k).coreChannelSize = 4 * a.PAGESIZE := by
  have h4 := megaByte_four
  have hmod : sys.bootImageSize % a.PAGESIZE < a.PAGESIZE := Nat.mod_lt _ hP
  have e1 : a.wrap (mpc * k) = mpc * k := wrap_of_lt a (by omega)
  have e2 : a.wrap (MegaByte 4) = MegaByte 4 := wrap_of_lt a (by omega)
  have e3 : a.wrap (mpc * k + MegaByte 4) = mpc * k + MegaByte 4 := wrap_of_lt a (by omega)
  have e4 : a.wrap (mpc * k + MegaByte 4 + sys.bootImageSize)
      = mpc * k + MegaByte 4 + sys.bootImageSize := wrap_of_lt a (by omega)
  have e5 : a.wsub a.PAGESIZE (sys.bootImageSize % a.PAGESIZE)
      = a.PAGESIZE - sys.bootImageSize % a.PAGESIZE :=
    wsub_of_le a (le_of_lt hmod) (by omega)
  have e6 : a.wrap (mpc * k + MegaByte 4 + sys.bootImageSize
      + (a.PAGESIZE - sys.bootImageSize % a.PAGESIZE))
      = mpc * k + MegaByte 4 + sys.bootImageSize
        + (a.PAGESIZE - sys.bootImageSize % a.PAGESIZE) := wrap_of_lt a (by omega)
  have e7 : a.wrap (a.PAGESIZE * 4) = 4 * a.PAGESIZE := by
    rw [wrap_of_lt a (by omega)]; omega
  simp only [makeCoreInfo, e1, e2, e3, e4, e5, e6, e7, and_self]

/-- The partition size of a generated `CoreInfo` when `memPerCore - PAGESIZE`
does not wrap. -/
theorem makeCoreInfo_memory_size (a : Arch) (sys : SystemInformation) (entry mpc k : Nat)
    (hle : a.PAGESIZE ≤ mpc) (hlt : mpc < a.wordMod) :
    (makeCoreInfo a sys entry mpc k).memory.size = mpc - a.PAGESIZE := by
  simp only [makeCoreInfo]
  exact wsub_of_le a hle hlt

theorem Index.get_insert {T : Type} (idx : Index T) (p q : Nat) (x : T) :
    (idx.insert p x).get q = if q = p then some x else idx.get q := rfl

/-- The index built by the loop of `discover`: exactly the non-zero ids of the
list are occupied, each by the record of lines 236-251. -/
theorem discoverLoop_get (a : Arch) (env : Env) (sys : SystemInformation) (entry : Nat)
    (regions : List MemoryRegion) (mpc : Nat) (cores : List Nat) :
    ∀ (h : List Event) (idx : Index CoreInfo) (k : Nat),
      (discoverLoop a env sys entry regions mpc cores h idx).1.get k =
        if k ∈ cores ∧ k ≠ 0 then some (makeCoreInfo a sys entry mpc k) else idx.get k := by
  induction cores with
  | nil => intro h idx k; simp [discoverLoop]
  | cons c rest ih =>
    intro h idx k
    by_cases hc : c = 0
    · subst hc
      simp only [discoverLoop, ne_eq, not_true_eq_false, if_false, ih, List.mem_cons]
      by_cases hk : k = 0
      · simp [hk]
      · simp [hk]
    · simp only [discoverLoop, ne_eq, hc, not_false_eq_true, if_true, ih, List.mem_cons,
        Index.get_insert]
      by_cases hk : k = c
      · subst hk; simp [hc]
      · simp [hk]

/-- Every record that `discover` leaves in `m_coreInfo` belongs to a non-zero
id of the core list and is the record of lines 236-251 for this id. -/
theorem discover_get (a : Arch) (env : Env) (sys : SystemInformation) (entry : Nat)
    (regions : List MemoryRegion) (cores : List Nat) (h : List Event) (d : Discovered)
    (k : Nat) (info : CoreInfo)
    (hd : discover a env sys entry regions cores h = some d)
    (hk : d.coreInfo.get k = some info) :
    k ∈ cores ∧ k ≠ 0 ∧
      info = makeCoreInfo a sys entry (memPerCore a sys.memorySize cores.length) k := by
  unfold discover at hd
  split at hd
  · exact absurd hd (by simp)
  · simp only [Option.some.injEq] at hd
    subst hd
    simp only [discoverBody, discoverLoop_get] at hk
    split at hk
    · rename_i hmem
      simp only [Option.some.injEq] at hk
      exact ⟨hmem.1, hmem.2, hk.symm⟩
    · simp [Index.new, Index.get] at hk

/-- An environment in which every primitive succeeds and every copy is
complete. -/
def envOk : Env :=
  { vmctlRemoveMem := fun _ _ => API.Success
    vmctlMap := fun _ r => (API.Success, 3221225472 + r.phys % 4096)
    vmCopy := fun _ _ _ size => size
    vmctlUnMap := fun _ _ => API.Success
    boot := fun _ _ => IntelMP.Success }

/-- A master core of a machine with 64 MiB of memory and a boot image of
`bootImageSize` bytes at 2 MiB. -/
def sysMaster (bootImageSize : Nat) : SystemInformation :=
  { coreId := 0
    memorySize := MegaByte 64
    bootImageAddress := MegaByte 2
    bootImageSize := bootImageSize
    coreChannelAddress := 0
    timerCounter := 1000 }

/-- A kernel image of two regions. -/
def sampleRegions : List MemoryRegion :=
  [ { virtualAddress := 1048576, size := 8192, data := 268435456 },
    { virtualAddress := 1056768, size := 4096, data := 268443648 } ]

/-- The run of `discover` on four cores with every primitive succeeding. -/
def sampleRun : Discovered :=
  discoverBody intel envOk (sysMaster 10000) 1048576 sampleRegions [0, 1, 2, 3] []

/-- The record generated in that run for core `k`. -/
def sampleInfo (k : Nat) : CoreInfo :=
  makeCoreInfo intel (sysMaster 10000) 1048576 (memPerCore intel (MegaByte 64) 4) k

/-! ## The error taxonomy of the specification -/

/-- The error kind that the specification gives to a step, read off the call
and its answer: a rejected claim or map is `OutOfMemory`, a copy whose
returned length differs from the requested size or a failed unmap is
`MemoryError`, a rejected boot signal is `BootError`; `none` for a step that
succeeded. -/
def Event.failure : Event → Option Result
  | Event.removeMem _ ret => if ret = API.Success then none else some Result.OutOfMemory
  | Event.map _ ret _ => if ret = API.Success then none else some Result.OutOfMemory
  | Event.copy _ _ size ret => if ret = size then none else some Result.MemoryError
  | Event.unmap _ ret => if ret = API.Success then none else some Result.MemoryError
  | Event.boot _ ret => if ret = IntelMP.Success then none else some Result.BootError

/-- The result that the specification prescribes for a sequence of steps: the
error kind of the first failed step, `Success` when no step failed. -/
def firstFailure : List Event → Result
  | [] => Result.Success
  | e :: es =>
    match e.failure with
    | some r => r
    | none => firstFailure es

/-- No step of the sequence failed. -/
def Clean (es : List Event) : Prop := ∀ e ∈ es, e.failure = none

/-- The shape of a run that stops at its first failure: either no step failed,
or exactly the last step failed and it carries the error kind `r`. -/
def StopsAtFailure (r : Result) (es : List Event) : Prop :=
  (r = Result.Success ∧ Clean es) ∨
    (∃ pre e, es = pre ++ [e] ∧ Clean pre ∧ e.failure = some r)

theorem clean_nil : Clean [] := by intro e he; cases he

theorem clean_cons {e : Event} {es : List Event} (he : e.failure = none) (hes : Clean es) :
    Clean (e :: es) := by
  intro x hx
  rcases List.mem_cons.mp hx with rfl | hx
  · exact he
  · exact hes x hx

theorem clean_append {es fs : List Event} (hes : Clean es) (hfs : Clean fs) :
    Clean (es ++ fs) := by
  intro x hx
  rcases List.mem_append.mp hx with hx | hx
  · exact hes x hx
  · exact hfs x hx

theorem failure_ne_success (e : Event) : e.failure ≠ some Result.Success := by
  cases e <;> simp only [Event.failure] <;> split <;> simp

theorem firstFailure_clean {es : List Event} (h : Clean es) :
    firstFailure es = Result.Success := by
  induction es with
  | nil => rfl
  | cons e es ih =>
    have he : e.failure = none := h e (List.mem_cons_self _ _)
    simp only [firstFailure, he]
    exact ih (fun x hx => h x (List.mem_cons_of_mem _ hx))

theorem firstFailure_clean_append {pre : List Event} {e : Event} {r : Result}
    (h : Clean pre) (he : e.failure = some r) : firstFailure (pre ++ [e]) = r := by
  induction pre with
  | nil => simp [firstFailure, he]
  | cons x xs ih =>
    have hx : x.failure = none := h x (List.mem_cons_self _ _)
    simp only [List.cons_append, firstFailure, hx]
    exact ih (fun y hy => h y (List.mem_cons_of_mem _ hy))

theorem clean_append_last_unique {pre' : List Event} {e' : Event} (h : Clean pre') :
    ∀ (pre : List Event) (e : Event) (post : List Event),
      pre' ++ [e'] = pre ++ e :: post → e.failure ≠ none → post = [] ∧ pre = pre' := by
  induction pre' with
  | nil =>
    intro pre e post heq _
    cases pre with
    | nil =>
      simp only [List.nil_append, List.cons.injEq] at heq
      exact ⟨heq.2.symm, rfl⟩
    | cons y ys =>
      simp only [List.nil_append, List.cons_append, List.cons.injEq] at heq
      have := heq.2
      cases ys <;> simp at this
  | cons x xs ih =>
    intro pre e post heq hne
    cases pre with
    | nil =>
      simp only [List.cons_append, List.nil_append, List.cons.injEq] at heq
      have hx : x.failure = none := h x (List.mem_cons_self _ _)
      rw [heq.1] at hx
      exact absurd hx hne
    | cons y ys =>
      simp only [List.cons_append, List.cons.injEq] at heq
      obtain ⟨h1, h2⟩ := ih (fun z hz => h z (List.mem_cons_of_mem _ hz)) ys e post heq.2 hne
      exact ⟨h1, by rw [heq.1, h2]⟩

/-- A run that stops at its first failure returns what the specification
prescribes, and a failed step is always its last step. -/
theorem StopsAtFailure.spec {r : Result} {es : List Event} (h : StopsAtFailure r es) :
    r = firstFailure es ∧
    (∀ pre e post, es = pre ++ e :: post → e.failure ≠ none → post = [] ∧ Clean pre) ∧
    (r = Result.Success ↔ Clean es) := by
  rcases h with ⟨hr, hc⟩ | ⟨pre', e', rfl, hc, he⟩
  · refine ⟨by rw [hr, firstFailure_clean hc], ?_, ?_⟩
    · intro pre e post heq hne
      exact absurd (hc e (by rw [heq]; simp)) hne
    · exact ⟨fun _ => hc, fun _ => hr⟩
  · refine ⟨(firstFailure_clean_append hc he).symm, ?_, ?_⟩
    · intro pre e post heq hne
      obtain ⟨h1, h2⟩ := clean_append_last_unique hc pre e post heq hne
      exact ⟨h1, by rw [h2]; exact hc⟩
    · constructor
      · intro hr
        rw [hr] at he
        exact absurd he (failure_ne_success e')
      · intro hcl
        have := hcl e' (by simp)
        rw [this] at he
        cases he

theorem StopsAtFailure.cons {r : Result} {e : Event} {es : List Event}
    (he : e.failure = none) (h : StopsAtFailure r es) : StopsAtFailure r (e :: es) := by
  rcases h with ⟨hr, hc⟩ | ⟨pre, x, rfl, hc, hx⟩
  · exact Or.inl ⟨hr, clean_cons he hc⟩
  · exact Or.inr ⟨e :: pre, x, rfl, clean_cons he hc, hx⟩

theorem StopsAtFailure.append {r : Result} {es fs : List Event}
    (hes : Clean es) (h : StopsAtFailure r fs) : StopsAtFailure r (es ++ fs) := by
  induction es with
  | nil => exact h
  | cons e es ih =>
    exact StopsAtFailure.cons (hes e (List.mem_cons_self _ _))
      (ih (fun x hx => hes x (List.mem_cons_of_mem _ hx)))

/-- The outcome of the region loop over `n` regions: it runs to its end with
three successful steps per region, or it returns the error kind of its last
step, the only failed one. -/
def RegionsShape (n : Nat) (out : Option Result × List Event) : Prop :=
  (out.1 = none ∧ Clean out.2 ∧ out.2.length = 3 * n) ∨
    (∃ r pre e, out.1 = some r ∧ out.2 = pre ++ [e] ∧ Clean pre ∧ e.failure = some r)

theorem RegionsShape.prepend {n : Nat} {out : Option Result × List Event}
    {es : List Event} (hes : Clean es) (hlen : es.length = 3) (h : RegionsShape n out) :
    RegionsShape (n + 1) (out.1, es ++ out.2) := by
  rcases h with ⟨h1, h2, h3⟩ | ⟨r, pre, e, h1, h2, h3, h4⟩
  · refine Or.inl ⟨h1, clean_append hes h2, ?_⟩
    simp only [List.length_append, hlen, h3]
    omega
  · refine Or.inr ⟨r, es ++ pre, e, h1, ?_, clean_append hes h3, h4⟩
    simp only [h2, List.append_assoc]

theorem bootRegions_shape (a : Arch) (env : Env) (info : CoreInfo)
    (regions : List MemoryRegion) :
    ∀ h : List Event, RegionsShape regions.length (bootRegions a env info regions h) := by
  induction regions with
  | nil => intro h; exact Or.inl ⟨rfl, clean_nil, rfl⟩
  | cons region rest ih =>
    intro h
    simp only [bootRegions]
    split
    · rename_i hm
      exact Or.inr ⟨_, [], _, rfl, rfl, clean_nil, by simp [Event.failure, API.Success, hm]⟩
    · rename_i hm
      have hm0 := not_not.mp hm
      split
      · rename_i hr
        refine Or.inr ⟨_, [_], _, rfl, rfl, ?_, by simp [Event.failure, hr]⟩
        exact clean_cons (by simp [Event.failure, API.Success, hm0]) clean_nil
      · rename_i hr
        have hr0 := not_not.mp hr
        split
        · rename_i hu
          refine Or.inr ⟨_, [_, _], _, rfl, rfl, ?_, by simp [Event.failure, hu]⟩
          exact clean_cons (by simp [Event.failure, API.Success, hm0])
            (clean_cons (by simp [Event.failure, hr0]) clean_nil)
        · rename_i hu
          have hu0 := not_not.mp hu
          exact RegionsShape.prepend
            (clean_cons (by simp [Event.failure, API.Success, hm0])
              (clean_cons (by simp [Event.failure, hr0])
                (clean_cons (by simp [Event.failure, hu0]) clean_nil)))
            rfl (ih _)

/-- The boot-image steps and the boot signal stop at their first failure, and
on success they are four steps, the last one the accepted boot signal. -/
theorem bootImageAndSignal_shape (env : Env) (sys : SystemInformation) (info : CoreInfo)
    (h : List Event) :
    StopsAtFailure (bootImageAndSignal env sys info h).1 (bootImageAndSignal env sys info h).2 ∧
    ((bootImageAndSignal env sys info h).1 = Result.Success →
      ∃ pre, (bootImageAndSignal env sys info h).2 = pre ++ [Event.boot info IntelMP.Success] ∧
        pre.length = 3) := by
  simp only [bootImageAndSignal]
  split
  · rename_i hm
    refine ⟨Or.inr ⟨[], _, rfl, clean_nil, by simp [Event.failure, hm]⟩, ?_⟩
    intro hc; cases hc
  · rename_i hm
    have hm0 := not_not.mp hm
    split
    · rename_i hr
      refine ⟨Or.inr ⟨[_], _, rfl, ?_, by simp [Event.failure, hr]⟩, ?_⟩
      · exact clean_cons (by simp [Event.failure, hm0]) clean_nil
      · intro hc; cases hc
    · rename_i hr
      have hr0 := not_not.mp hr
      split
      · rename_i hu
        refine ⟨Or.inr ⟨[_, _], _, rfl, ?_, by simp [Event.failure, hu]⟩, ?_⟩
        · exact clean_cons (by simp [Event.failure, hm0])
            (clean_cons (by simp [Event.failure, hr0]) clean_nil)
        · intro hc; cases hc
      · rename_i hu
        have hu0 := not_not.mp hu
        split
        · rename_i hb
          refine ⟨Or.inr ⟨[_, _, _], _, rfl, ?_, by simp [Event.failure, hb]⟩, ?_⟩
          · exact clean_cons (by simp [Event.failure, hm0])
              (clean_cons (by simp [Event.failure, hr0])
                (clean_cons (by simp [Event.failure, hu0]) clean_nil))
          · intro hc; cases hc
        · rename_i hb
          have hb0 := not_not.mp hb
          refine ⟨Or.inl ⟨rfl, ?_⟩, ?_⟩
          · exact clean_cons (by simp [Event.failure, hm0])
              (clean_cons (by simp [Event.failure, hr0])
                (clean_cons (by simp [Event.failure, hu0])
                  (clean_cons (by simp [Event.failure, hb0]) clean_nil)))
          · intro _
            exact ⟨[_, _, _], by rw [hb0]; rfl, rfl⟩

/-- The run of `bootCore` stops at its first failure; its first step is the
claim of `info.memory`; on success it made `3 * regions.length + 5` steps, the
last one the accepted boot signal for `info`. -/
theorem bootCore_shape (a : Arch) (env : Env) (sys : SystemInformation) (coreId : Nat)
    (info : CoreInfo) (regions : List MemoryRegion) (h : List Event) :
    StopsAtFailure (bootCore a env sys coreId info regions h).1
      (bootCore a env sys coreId info regions h).2 ∧
    (∃ tl, (bootCore a env sys coreId info regions h).2
      = Event.removeMem info.memory (env.vmctlRemoveMem h info.memory) :: tl) ∧
    ((bootCore a env sys coreId info regions h).1 = Result.Success →
      (bootCore a env sys coreId info regions h).2.length = 3 * regions.length + 5 ∧
      ∃ pre, (bootCore a env sys coreId info regions h).2
        = pre ++ [Event.boot info IntelMP.Success]) := by
  simp only [bootCore]
  split
  · rename_i hc
    refine ⟨Or.inr ⟨[], _, rfl, clean_nil, by simp [Event.failure, hc]⟩, ⟨_, rfl⟩, ?_⟩
    intro hx; cases hx
  · rename_i hc
    have hc0 := not_not.mp hc
    have he0 : (Event.removeMem info.memory (env.vmctlRemoveMem h info.memory)).failure
        = none := by simp [Event.failure, hc0]
    split
    · rename_i r hloop
      rcases bootRegions_shape a env info regions
          (h ++ [Event.removeMem info.memory (env.vmctlRemoveMem h info.memory)])
        with ⟨h1, _, _⟩ | ⟨r', pre, e, h1, h2, h3, h4⟩
      · rw [h1] at hloop; cases hloop
      · rw [h1] at hloop
        simp only [Option.some.injEq] at hloop
        subst hloop
        refine ⟨Or.inr ⟨_ :: pre, e, by rw [h2]; rfl, clean_cons he0 h3, h4⟩, ⟨_, rfl⟩, ?_⟩
        intro hx
        simp only at hx
        rw [hx] at h4
        exact absurd h4 (failure_ne_success e)
    · rename_i hloop
      rcases bootRegions_shape a env info regions
          (h ++ [Event.removeMem info.memory (env.vmctlRemoveMem h info.memory)])
        with ⟨_, h2, h3⟩ | ⟨r', pre, e, h1, _, _, _⟩
      · obtain ⟨t1, t2⟩ := bootImageAndSignal_shape env sys info
          (h ++ Event.removeMem info.memory (env.vmctlRemoveMem h info.memory) ::
            (bootRegions a env info regions
              (h ++ [Event.removeMem info.memory (env.vmctlRemoveMem h info.memory)])).2)
        refine ⟨?_, ⟨_, rfl⟩, ?_⟩
        · have := StopsAtFailure.append (clean_cons he0 h2) t1
          simpa using this
        · intro hx
          obtain ⟨pre, hp, hl⟩ := t2 hx
          refine ⟨?_, ⟨Event.removeMem info.memory (env.vmctlRemoveMem h info.memory) ::
            ((bootRegions a env info regions
              (h ++ [Event.removeMem info.memory (env.vmctlRemoveMem h info.memory)])).2
              ++ pre), by rw [hp]; simp⟩⟩
          simp only [List.length_cons, List.length_append, h3, hp, hl, List.length_nil]
      · rw [h1] at hloop; cases hloop

/-- The partition claimed by a step, when the step is a claim. -/
def Event.claimed : Event → Option Range
  | Event.removeMem r _ => some r
  | _ => none

theorem bootRegions_claims (a : Arch) (env : Env) (info : CoreInfo)
    (regions : List MemoryRegion) :
    ∀ h : List Event, (bootRegions a env info regions h).2.filterMap Event.claimed = [] := by
  induction regions with
  | nil => intro h; rfl
  | cons region rest ih =>
    intro h
    simp only [bootRegions]
    split
    · rfl
    · split
      · rfl
      · split
        · rfl
        · simp only [List.filterMap_append, ih]
          rfl

theorem bootImageAndSignal_claims (env : Env) (sys : SystemInformation) (info : CoreInfo)
    (h : List Event) : (bootImageAndSignal env sys info h).2.filterMap Event.claimed = [] := by
  simp only [bootImageAndSignal]
  split
  · rfl
  · split
    · rfl
    · split
      · rfl
      · split <;> rfl

/-- A call of `bootCore` claims `info.memory` and nothing else. -/
theorem bootCore_claims (a : Arch) (env : Env) (sys : SystemInformation) (coreId : Nat)
    (info : CoreInfo) (regions : List MemoryRegion) (h : List Event) :
    (bootCore a env sys coreId info regions h).2.filterMap Event.claimed = [info.memory] := by
  simp only [bootCore]
  split
  · rfl
  · split
    · simp only [List.filterMap_cons, Event.claimed, bootRegions_claims]
    · simp only [List.filterMap_cons, List.filterMap_append, Event.claimed,
        bootRegions_claims, bootImageAndSignal_claims, List.append_nil]

/-- The calls of `bootCore` made by the loop of `discover`: one per non-zero id
of the list, in list order; each claims the partition of its own record. -/
theorem discoverLoop_boots (a : Arch) (env : Env) (sys : SystemInformation) (entry : Nat)
    (regions : List MemoryRegion) (mpc : Nat) (cores : List Nat) :
    ∀ (h : List Event) (idx : Index CoreInfo),
      (discoverLoop a env sys entry regions mpc cores h idx).2.2.map Prod.fst
        = cores.filter (fun c => c ≠ 0) ∧
      (discoverLoop a env sys entry regions mpc cores h idx).2.1.filterMap Event.claimed
        = (cores.filter (fun c => c ≠ 0)).map
            (fun c => (makeCoreInfo a sys entry mpc c).memory) := by
  induction cores with
  | nil => intro h idx; exact ⟨rfl, rfl⟩
  | cons c rest ih =>
    intro h idx
    by_cases hc : c = 0
    · subst hc
      simp only [discoverLoop, ne_eq, not_true_eq_false, if_false]
      have := ih h idx
      simpa using this
    · simp only [discoverLoop, ne_eq, hc, not_false_eq_true, if_true, List.map_cons,
        List.filterMap_append, bootCore_claims]
      have := ih (h ++ (bootCore a env sys c (makeCoreInfo a sys entry mpc c) regions h).2)
        (idx.insert c (makeCoreInfo a sys entry mpc c))
      simp only [ne_eq] at this
      rw [this.1, this.2]
      simp [hc]

/-- The ids for which a run of `discover` called `bootCore`. -/
theorem discover_boots (a : Arch) (env : Env) (sys : SystemInformation) (entry : Nat)
    (regions : List MemoryRegion) (cores : List Nat) (h : List Event) (d : Discovered)
    (hd : discover a env sys entry regions cores h = some d) :
    d.boots.map Prod.fst = cores.filter (fun c => c ≠ 0) := by
  unfold discover at hd
  split at hd
  · cases hd
  · simp only [Option.some.injEq] at hd
    subst hd
    exact (discoverLoop_boots a env sys entry regions _ cores h _).1

/-- An environment in which every copy stops one byte short. -/
def envShortCopy : Env :=
  { envOk with vmCopy := fun _ _ _ size => size - 1 }

/-! ## Mapping windows -/

/-- The number of open mapping windows after one step when `n` were open
before: a successful `Map` opens one, a successful `UnMap` closes one. -/
def Event.window : Event → Nat → Nat
  | Event.map _ ret _, n => if ret = API.Success then n + 1 else n
  | Event.unmap _ ret, n => if ret = API.Success then n - 1 else n
  | Event.removeMem _ _, n => n
  | Event.copy _ _ _ _, n => n
  | Event.boot _ _, n => n

/-- The number of mapping windows open after the steps `es` when `n` were
open before. -/
def openWindows : List Event → Nat → Nat
  | [], n => n
  | e :: es, n => openWindows es (e.window n)

/-- The largest number of mapping windows open at any point of the steps
`es` when `n` were open before. -/
def peakWindows : List Event → Nat → Nat
  | [], n => n
  | e :: es, n => max n (peakWindows es (e.window n))

/-- An environment in which the first copy of the run stops one byte short
and everything else succeeds. -/
def envFirstCopyShort : Env :=
  { envOk with vmCopy := fun h _ _ size => if h.length < 3 then size - 1 else size }

theorem openWindows_append (es fs : List Event) :
    ∀ n, openWindows (es ++ fs) n = openWindows fs (openWindows es n) := by
  induction es with
  | nil => intro n; rfl
  | cons e es ih =>
    intro n
    rw [List.cons_append]
    simp only [openWindows]
    exact ih _

theorem le_peakWindows (es : List Event) (n : Nat) : n ≤ peakWindows es n := by
  cases es with
  | nil => exact le_refl _
  | cons f fs => exact le_max_left _ _

theorem peakWindows_append (es fs : List Event) :
    ∀ n, peakWindows (es ++ fs) n
      = max (peakWindows es n) (peakWindows fs (openWindows es n)) := by
  induction es with
  | nil =>
    intro n
    simp only [List.nil_append, peakWindows, openWindows]
    have := le_peakWindows fs n
    omega
  | cons e es ih =>
    intro n
    rw [List.cons_append]
    simp only [peakWindows, openWindows]
    rw [ih]
    omega

/-- How many windows a result leaves open: `bootCore` returns `MemoryError`
from lines 165, 170, 192 and 196, after a successful `Map` and before or
instead of the successful `UnMap`. -/
def leaked (r : Option Result) : Nat := if r = some Result.MemoryError then 1 else 0

/-- The region loop never has more than one window of its own open, and one
stays open exactly when it returns `MemoryError`. -/
theorem bootRegions_windows (a : Arch) (env : Env) (info : CoreInfo)
    (regions : List MemoryRegion) :
    ∀ (h : List Event) (n : Nat),
      peakWindows (bootRegions a env info regions h).2 n ≤ n + 1 ∧
      openWindows (bootRegions a env info regions h).2 n
        = n + leaked (bootRegions a env info regions h).1 := by
  induction regions with
  | nil => intro h n; simp [bootRegions, peakWindows, openWindows, leaked]
  | cons region rest ih =>
    intro h n
    simp only [bootRegions]
    generalize env.vmctlMap h _ = m
    generalize env.vmCopy _ _ _ _ = r
    generalize env.vmctlUnMap _ _ = u
    by_cases hm : m.1 = 0
    · by_cases hr : r = region.size
      · by_cases hu : u = API.Success
        · simp only [hm, hr, hu, ne_eq, not_true_eq_false, if_false, List.cons_append,
            List.nil_append, peakWindows, openWindows, Event.window, API.Success, if_true,
            Nat.add_sub_cancel]
          refine ⟨?_, (ih _ n).2⟩
          exact max_le (by omega) (max_le (by omega) (max_le (by omega) (ih _ n).1))
        · have hu' : ¬ u = 0 := hu
          simp [peakWindows, openWindows, Event.window, leaked, API.Success, hm, hr, hu, hu']
      · simp [peakWindows, openWindows, Event.window, leaked, API.Success, hm, hr]
    · simp [peakWindows, openWindows, Event.window, leaked, API.Success, hm]

/-- The boot-image steps never have more than one window open, and one stays
open exactly when they return `MemoryError`. -/
theorem bootImageAndSignal_windows (env : Env) (sys : SystemInformation) (info : CoreInfo)
    (h : List Event) (n : Nat) :
    peakWindows (bootImageAndSignal env sys info h).2 n ≤ n + 1 ∧
    openWindows (bootImageAndSignal env sys info h).2 n
      = n + leaked (some (bootImageAndSignal env sys info h).1) := by
  simp only [bootImageAndSignal]
  generalize env.vmctlMap h _ = m
  generalize env.vmCopy _ _ _ _ = r
  generalize env.vmctlUnMap _ _ = u
  generalize env.boot _ _ = b
  by_cases hm : m.1 = API.Success
  · by_cases hr : r = sys.bootImageSize
    · by_cases hu : u = API.Success
      · by_cases hb : b = IntelMP.Success
        · simp [peakWindows, openWindows, Event.window, leaked, hm, hr, hu, hb]
        · simp [peakWindows, openWindows, Event.window, leaked, hm, hr, hu, hb]
      · simp [peakWindows, openWindows, Event.window, leaked, hm, hr, hu]
    · simp [peakWindows, openWindows, Event.window, leaked, hm, hr]
  · simp [peakWindows, openWindows, Event.window, leaked, hm]

/-- A call of `bootCore` never has more than one window of its own open, and
leaves one open exactly when it returns `MemoryError`. -/
theorem bootCore_windows (a : Arch) (env : Env) (sys : SystemInformation) (coreId : Nat)
    (info : CoreInfo) (regions : List MemoryRegion) (h : List Event) (n : Nat) :
    peakWindows (bootCore a env sys coreId info regions h).2 n ≤ n + 1 ∧
    openWindows (bootCore a env sys coreId info regions h).2 n
      = n + leaked (some (bootCore a env sys coreId info regions h).1) := by
  simp only [bootCore]
  split
  · simp [peakWindows, openWindows, Event.window, leaked]
  · obtain ⟨r1, r2⟩ := bootRegions_windows a env info regions
      (h ++ [Event.removeMem info.memory (env.vmctlRemoveMem h info.memory)]) n
    split
    · rename_i r hloop
      rw [hloop] at r2
      simp only [peakWindows, openWindows, Event.window]
      exact ⟨max_le (by omega) r1, r2⟩
    · rename_i hloop
      rw [hloop] at r2
      have r2' : openWindows (bootRegions a env info regions
          (h ++ [Event.removeMem info.memory (env.vmctlRemoveMem h info.memory)])).2 n = n := by
        simpa [leaked] using r2
      obtain ⟨b1, b2⟩ := bootImageAndSignal_windows env sys info
        (h ++ Event.removeMem info.memory (env.vmctlRemoveMem h info.memory) ::
          (bootRegions a env info regions
            (h ++ [Event.removeMem info.memory (env.vmctlRemoveMem h info.memory)])).2) n
      rw [peakWindows_append, openWindows_append]
      simp only [peakWindows, openWindows, Event.window, r2']
      exact ⟨max_le (max_le (by omega) r1) b1, b2⟩

theorem memoryErrors_cons (p : Nat × Result) (l : List (Nat × Result)) :
    ((p :: l).filter (fun q => q.2 = Result.MemoryError)).length
      = leaked (some p.2) + (l.filter (fun q => q.2 = Result.MemoryError)).length := by
  unfold leaked
  by_cases h : p.2 = Result.MemoryError
  · simp [List.filter_cons, h]
    omega
  · simp [List.filter_cons, h]

/-- The windows left open by a run of the loop of `discover`: one for every
call of `bootCore` that returned `MemoryError`; at no point more than one
beyond those left open so far. -/
theorem discoverLoop_windows (a : Arch) (env : Env) (sys : SystemInformation) (entry : Nat)
    (regions : List MemoryRegion) (mpc : Nat) (cores : List Nat) :
    ∀ (h : List Event) (idx : Index CoreInfo) (n : Nat),
      openWindows (discoverLoop a env sys entry regions mpc cores h idx).2.1 n
        = n + ((discoverLoop a env sys entry regions mpc cores h idx).2.2.filter
            (fun p => p.2 = Result.MemoryError)).length ∧
      peakWindows (discoverLoop a env sys entry regions mpc cores h idx).2.1 n
        ≤ n + ((discoverLoop a env sys entry regions mpc cores h idx).2.2.filter
            (fun p => p.2 = Result.MemoryError)).length + 1 := by
  induction cores with
  | nil => intro h idx n; simp [discoverLoop, openWindows, peakWindows]
  | cons c rest ih =>
    intro h idx n
    by_cases hc : c = 0
    · subst hc
      simp only [discoverLoop, ne_eq, not_true_eq_false, if_false]
      exact ih h idx n
    · simp only [discoverLoop, ne_eq, hc, not_false_eq_true, if_true,
        openWindows_append, peakWindows_append]
      obtain ⟨b1, b2⟩ := bootCore_windows a env sys c (makeCoreInfo a sys entry mpc c)
        regions h n
      obtain ⟨i1, i2⟩ := ih
        (h ++ (bootCore a env sys c (makeCoreInfo a sys entry mpc c) regions h).2)
        (idx.insert c (makeCoreInfo a sys entry mpc c))
        (openWindows (bootCore a env sys c (makeCoreInfo a sys entry mpc c) regions h).2 n)
      rw [i1, memoryErrors_cons]
      simp only at b2 ⊢
      constructor
      · omega
      · refine max_le (by omega) ?_
        omega

/-- The windows of a run of `discover` that starts with `n` windows open: at
the end one more is open for every call of `bootCore` that returned
`MemoryError`, and at no point more than these plus one; a run in which no
call returns `MemoryError` never has more than one window of its own open. -/
theorem discover_windows (a : Arch) (env : Env) (sys : SystemInformation) (entry : Nat)
    (regions : List MemoryRegion) (cores : List Nat) (h : List Event) (d : Discovered)
    (n : Nat) (hd : discover a env sys entry regions cores h = some d) :
    openWindows d.events n
      = n + (d.boots.filter (fun p => p.2 = Result.MemoryError)).length ∧
    peakWindows d.events n
      ≤ n + (d.boots.filter (fun p => p.2 = Result.MemoryError)).length + 1 ∧
    ((∀ p ∈ d.boots, p.2 ≠ Result.MemoryError) →
      peakWindows d.events n ≤ n + 1 ∧ openWindows d.events n = n) := by
  unfold discover at hd
  split at hd
  · cases hd
  · simp only [Option.some.injEq] at hd
    subst hd
    obtain ⟨h1, h2⟩ := discoverLoop_windows a env sys entry regions
      (memPerCore a sys.memorySize cores.length) cores h (Index.new cores.length) n
    refine ⟨h1, h2, ?_⟩
    intro hall
    have h0 : ((discoverBody a env sys entry regions cores h).boots.filter
        (fun p => p.2 = Result.MemoryError)) = [] := by
      apply List.filter_eq_nil_iff.mpr
      intro p hp
      simpa using hall p hp
    simp only [discoverBody] at h0
    simp only [discoverBody]
    rw [h0] at h1 h2
    exact ⟨by simpa using h2, by simpa using h1⟩

/-! ## The channels built by `setupChannels` -/

/-- The `toSlave` channel of lines 274-279 for the record `info`. -/
def toSlaveChannel (a : Arch) (info : CoreInfo) : MemoryChannel :=
  { mode := ChannelMode.Producer
    messageSize := a.sizeofCoreMessage
    data := a.wrap (info.coreChannelAddress + a.wrap (a.PAGESIZE * 2))
    feedback := a.wrap (info.coreChannelAddress + a.wrap (a.PAGESIZE * 3)) }

/-- The `fromSlave` channel of lines 282-286 for the record `info`. -/
def fromSlaveChannel (a : Arch) (info : CoreInfo) : MemoryChannel :=
  { mode := ChannelMode.Consumer
    messageSize := a.sizeofCoreMessage
    data := info.coreChannelAddress
    feedback := a.wrap (info.coreChannelAddress + a.PAGESIZE) }

/-- The byte addresses of the page that starts at `base`. -/
def inPage (a : Arch) (base x : Nat) : Prop := base ≤ x ∧ x < base + a.PAGESIZE

/-- When the loop of `setupChannels` completes, every `i` it visited has a
record in `m_coreInfo`, and the two indexes hold, under each visited `i`, the
channels built from the record of `i`; other keys are untouched. -/
theorem setupLoop_spec (a : Arch) (ci : Index CoreInfo) (l : List Nat) :
    ∀ (ts fs : Index MemoryChannel) (out : Index MemoryChannel × Index MemoryChannel),
      setupLoop a ci l ts fs = some out →
      (∀ i ∈ l, ∃ info, ci.get i = some info) ∧
      (∀ K, out.1.get K
        = if K ∈ l then (ci.get K).map (toSlaveChannel a) else ts.get K) ∧
      (∀ K, out.2.get K
        = if K ∈ l then (ci.get K).map (fromSlaveChannel a) else fs.get K) := by
  induction l with
  | nil =>
    intro ts fs out h
    simp only [setupLoop, Option.some.injEq] at h
    subst h
    simp
  | cons i rest ih =>
    intro ts fs out h
    simp only [setupLoop] at h
    split at h
    · cases h
    · rename_i info hinfo
      obtain ⟨h1, h2, h3⟩ := ih _ _ out h
      refine ⟨?_, ?_, ?_⟩
      · intro j hj
        rcases List.mem_cons.mp hj with rfl | hj
        · exact ⟨info, hinfo⟩
        · exact h1 j hj
      · intro K
        rw [h2 K]
        by_cases hK : K ∈ rest
        · simp [hK]
        · by_cases hKi : K = i
          · subst hKi
            simp [hK, Index.get_insert, hinfo, toSlaveChannel]
          · simp [hK, hKi, Index.get_insert]
      · intro K
        rw [h3 K]
        by_cases hK : K ∈ rest
        · simp [hK]
        · by_cases hKi : K = i
          · subst hKi
            simp [hK, Index.get_insert, hinfo, fromSlaveChannel]
          · simp [hK, hKi, Index.get_insert]

/-- The loop of `setupChannels` completes when every `i` it visits has a
record in `m_coreInfo`. -/
theorem setupLoop_complete (a : Arch) (ci : Index CoreInfo) (l : List Nat)
    (hl : ∀ i ∈ l, ∃ info, ci.get i = some info) :
    ∀ ts fs : Index MemoryChannel, ∃ out, setupLoop a ci l ts fs = some out := by
  induction l with
  | nil => intro ts fs; exact ⟨_, rfl⟩
  | cons i rest ih =>
    intro ts fs
    obtain ⟨info, hinfo⟩ := hl i (List.mem_cons_self _ _)
    simp only [setupLoop, hinfo]
    exact ih (fun j hj => hl j (List.mem_cons_of_mem _ hj)) _ _

theorem pairwise_four {α : Type} {R : α → α → Prop} {p q r t : α}
    (hpq : R p q) (hpr : R p r) (hpt : R p t) (hqr : R q r) (hqt : R q t) (hrt : R r t) :
    List.Pairwise R [p, q, r, t] := by
  refine List.Pairwise.cons ?_ (List.Pairwise.cons ?_ (List.Pairwise.cons ?_
    (List.Pairwise.cons ?_ List.Pairwise.nil)))
  · intro x hx
    simp only [List.mem_cons, List.mem_singleton, List.not_mem_nil, or_false] at hx
    rcases hx with rfl | rfl | rfl
    · exact hpq
    · exact hpr
    · exact hpt
  · intro x hx
    simp only [List.mem_cons, List.mem_singleton, List.not_mem_nil, or_false] at hx
    rcases hx with rfl | rfl
    · exact hqr
    · exact hqt
  · intro x hx
    simp only [List.mem_singleton] at hx
    subst hx
    exact hrt
  · intro x hx
    cases hx

/-- The system information seen by core 1 after the run `sampleRun`: its
`coreChannelAddress` is the one of the record generated for it. -/
def sysSlave : SystemInformation :=
  { coreId := 1
    memorySize := 16773120
    bootImageAddress := 20971520
    bootImageSize := 10000
    coreChannelAddress := 20983808
    timerCounter := 1000 }

/-- When the discovered ids are exactly `0, ..., N - 1` for a list of length
`N`, `setupChannels` on the master completes, and for every non-zero id of the
list both indexes hold the channel built from the record of this id. -/
theorem setupChannels_dense_ids (a : Arch) (env : Env) (sys : SystemInformation)
    (entry : Nat) (regions : List MemoryRegion) (cores : List Nat) (h : List Event)
    (hne : cores ≠ []) (hM : sys.coreId = 0)
    (hdense : ∀ i, 1 ≤ i → i < cores.length → i ∈ cores)
    (hbound : ∀ c ∈ cores, c < cores.length) :
    ∃ d ch, discover a env sys entry regions cores h = some d ∧
      setupChannels a sys d.coreInfo cores.length = some (Result.Success, ch) ∧
      ∀ k ∈ cores, k ≠ 0 → ∃ info, d.coreInfo.get k = some info ∧
        ch.toSlave.get k = some (toSlaveChannel a info) ∧
        ch.fromSlave.get k = some (fromSlaveChannel a info) := by
  have hlen : ¬ cores.length = 0 := by
    intro h0; exact hne (List.length_eq_zero.mp h0)
  have hd : discover a env sys entry regions cores h
      = some (discoverBody a env sys entry regions cores h) := by simp [discover, hlen]
  have hget : ∀ k, k ∈ cores → k ≠ 0 →
      (discoverBody a env sys entry regions cores h).coreInfo.get k
        = some (makeCoreInfo a sys entry (memPerCore a sys.memorySize cores.length) k) := by
    intro k hk hk0
    simp only [discoverBody, discoverLoop_get]
    rw [if_pos ⟨hk, hk0⟩]
  have hall : ∀ i ∈ List.range' 1 (cores.length - 1),
      ∃ info, (discoverBody a env sys entry regions cores h).coreInfo.get i = some info := by
    intro i hi
    have hi' := List.mem_range'_1.mp hi
    exact ⟨_, hget i (hdense i hi'.1 (by omega)) (by omega)⟩
  obtain ⟨out, hout⟩ := setupLoop_complete a _ _ hall (Index.new cores.length)
    (Index.new cores.length)
  obtain ⟨_, h2, h3⟩ := setupLoop_spec a _ _ _ _ out hout
  refine ⟨_, { toSlave := out.1, fromSlave := out.2, toMaster := none, fromMaster := none },
    hd, ?_, ?_⟩
  · simp only [setupChannels, hM, if_true, hout]
  · intro k hk hk0
    have hmem : k ∈ List.range' 1 (cores.length - 1) := by
      have := hbound k hk
      exact List.mem_range'_1.mpr ⟨by omega, by omega⟩
    refine ⟨_, hget k hk hk0, ?_, ?_⟩
    · simp only [h2 k, hmem, if_true, hget k hk hk0, Option.map_some']
    · simp only [h3 k, hmem, if_true, hget k hk hk0, Option.map_some']

/-! ## Claims -/

/-- C1: for every system memory size `M` (a machine word) and every core
count `N ≥ 1`, the `memPerCore` computed by `discover` is a multiple of
4 MiB and `memPerCore * N ≤ M`; for 4 cores and 64 MiB it is 16 MiB. -/
theorem memPerCore_aligned_and_bounded (a : Arch) (M N : Nat)
    (hM : M < a.wordMod) (_hN : 1 ≤ N) :
    MegaByte 4 ∣ memPerCore a M N ∧ memPerCore a M N * N ≤ M ∧
      memPerCore intel (MegaByte 64) 4 = MegaByte 16 := by
  rw [memPerCore_exact a M N hM]
  refine ⟨Dvd.intro_left _ rfl, ?_, by decide⟩
  have h1 : M / N / MegaByte 4 * MegaByte 4 ≤ M / N := Nat.div_mul_le_self _ _
  have h2 : M / N * N ≤ M := Nat.div_mul_le_self _ _
  exact le_trans (Nat.mul_le_mul_right N h1) h2

theorem memPerCore_aligned_and_bounded_witness :
    MegaByte 64 < intel.wordMod ∧ 1 ≤ 4 ∧
      (MegaByte 4 ∣ memPerCore intel (MegaByte 64) 4 ∧
        memPerCore intel (MegaByte 64) 4 * 4 ≤ MegaByte 64 ∧
        memPerCore intel (MegaByte 64) 4 = MegaByte 16) :=
  ⟨by decide, by decide,
    memPerCore_aligned_and_bounded intel (MegaByte 64) 4 (by decide) (by decide)⟩

/-- C3: every `CoreInfo` that `discover` generates for a non-master id `k`,
when `PAGESIZE` divides 4 MiB and no address computation wraps, has
`kernel.phys = memory.phys = memPerCore * k`, `kernel.size` 4 MiB, the boot
image directly after the kernel, a page-aligned `coreChannelAddress` at or
after the end of the boot image, and `coreChannelSize = 4 * PAGESIZE`. -/
theorem discover_coreInfo_layout (a : Arch) (env : Env) (sys : SystemInformation)
    (entry : Nat) (regions : List MemoryRegion) (cores : List Nat) (h : List Event)
    (d : Discovered) (k : Nat) (info : CoreInfo)
    (hd : discover a env sys entry regions cores h = some d)
    (hk : d.coreInfo.get k = some info)
    (hpage : a.PAGESIZE ∣ MegaByte 4)
    (hM : sys.memorySize < a.wordMod)
    (hfit : memPerCore a sys.memorySize cores.length * k + MegaByte 4 + sys.bootImageSize
      + (a.PAGESIZE - sys.bootImageSize % a.PAGESIZE) + 4 * a.PAGESIZE ≤ a.wordMod) :
    k ≠ 0 ∧ info.coreId = k ∧
    info.kernel.phys = info.memory.phys ∧
    info.memory.phys = memPerCore a sys.memorySize cores.length * k ∧
    info.kernel.size = MegaByte 4 ∧
    info.bootImageAddress = info.kernel.phys + info.kernel.size ∧
    info.bootImageSize = sys.bootImageSize ∧
    a.PAGESIZE ∣ info.coreChannelAddress ∧
    info.bootImageAddress + info.bootImageSize ≤ info.coreChannelAddress ∧
    info.coreChannelSize = 4 * a.PAGESIZE := by
  obtain ⟨_, hk0, rfl⟩ := discover_get a env sys entry regions cores h d k info hd hk
  have hP : 0 < a.PAGESIZE := by
    rcases Nat.eq_zero_or_pos a.PAGESIZE with h0 | h0
    · rw [h0] at hpage
      have := megaByte_four
      have := Nat.eq_zero_of_zero_dvd hpage
      omega
    · exact h0
  obtain ⟨e1, e2, e3, e4, e5, e6, e7⟩ :=
    makeCoreInfo_exact a sys entry (memPerCore a sys.memorySize cores.length) k hP hfit
  refine ⟨hk0, rfl, ?_, e1, e3, ?_, e5, ?_, ?_, e7⟩
  · rw [e1, e2]
  · rw [e4, e2, e3]
  · rw [e6]
    have hm : MegaByte 4 ∣ memPerCore a sys.memorySize cores.length := by
      rw [memPerCore_exact a _ _ hM]; exact Dvd.intro_left _ rfl
    have h1 : a.PAGESIZE ∣ memPerCore a sys.memorySize cores.length * k :=
      Dvd.dvd.mul_right (dvd_trans hpage hm) k
    have h2 : sys.bootImageSize + (a.PAGESIZE - sys.bootImageSize % a.PAGESIZE)
        = a.PAGESIZE * (sys.bootImageSize / a.PAGESIZE + 1) := by
      have := Nat.div_add_mod sys.bootImageSize a.PAGESIZE
      have := Nat.mod_lt sys.bootImageSize hP
      rw [Nat.mul_add, Nat.mul_one]
      omega
    have h3 : a.PAGESIZE ∣ sys.bootImageSize
        + (a.PAGESIZE - sys.bootImageSize % a.PAGESIZE) := by
      rw [h2]; exact Dvd.intro _ rfl
    have h4 : memPerCore a sys.memorySize cores.length * k + MegaByte 4 + sys.bootImageSize
        + (a.PAGESIZE - sys.bootImageSize % a.PAGESIZE)
        = memPerCore a sys.memorySize cores.length * k + MegaByte 4
          + (sys.bootImageSize + (a.PAGESIZE - sys.bootImageSize % a.PAGESIZE)) := by
      omega
    rw [h4]
    exact Dvd.dvd.add (Dvd.dvd.add h1 hpage) h3
  · rw [e4, e5, e6]; omega

theorem discover_coreInfo_layout_witness :
    discover intel envOk (sysMaster 10000) 1048576 sampleRegions [0, 1, 2, 3] []
        = some sampleRun ∧ sampleRun.coreInfo.get 1 = some (sampleInfo 1) ∧
      (sampleInfo 1).kernel.phys = (sampleInfo 1).memory.phys ∧
      (sampleInfo 1).memory.phys = 16777216 ∧
      (sampleInfo 1).bootImageAddress = 20971520 ∧
      (sampleInfo 1).coreChannelAddress = 20983808 ∧
      (sampleInfo 1).coreChannelSize = 16384 :=
  have t := discover_coreInfo_layout intel envOk (sysMaster 10000) 1048576 sampleRegions
    [0, 1, 2, 3] [] sampleRun 1 (sampleInfo 1) rfl rfl (by decide) (by decide) (by decide)
  ⟨rfl, rfl, t.2.2.1, by decide, by decide, by decide, by decide⟩

/-- C8, as stated, fails: with a boot image of 8192 bytes (two pages) the end
of the boot image of core 1 is already a page boundary, yet
`coreChannelAddress` lies a full page after it, so it is not the smallest
page multiple at or after the end and the gap is not below one page. -/
theorem coreChannelAddress_not_least_counterexample :
    ∃ d info, discover intel envOk (sysMaster 8192) 1048576 sampleRegions [0, 1, 2, 3] []
        = some d ∧ d.coreInfo.get 1 = some info ∧
      intel.PAGESIZE ∣ info.bootImageSize ∧
      intel.PAGESIZE ∣ info.bootImageAddress + info.bootImageSize ∧
      info.bootImageAddress + info.bootImageSize < info.coreChannelAddress ∧
      info.coreChannelAddress - (info.bootImageAddress + info.bootImageSize)
        = intel.PAGESIZE ∧
      ¬ (info.coreChannelAddress - (info.bootImageAddress + info.bootImageSize)
        < intel.PAGESIZE) ∧
      ¬ (∀ x, intel.PAGESIZE ∣ x → info.bootImageAddress + info.bootImageSize ≤ x →
        info.coreChannelAddress ≤ x) :=
  ⟨discoverBody intel envOk (sysMaster 8192) 1048576 sampleRegions [0, 1, 2, 3] [],
    makeCoreInfo intel (sysMaster 8192) 1048576 (memPerCore intel (MegaByte 64) 4) 1,
    rfl, rfl, by decide, by decide, by decide, by decide, by decide,
    fun hall => absurd (hall 20979712 (by decide) (by decide)) (by decide)⟩

/-- C8, amended: for every generated `CoreInfo` (with `PAGESIZE` dividing
4 MiB and no wrap-around) `coreChannelAddress` is the smallest multiple of
`PAGESIZE` strictly greater than the end of the boot image; the gap is
`PAGESIZE - bootImageSize % PAGESIZE`, at least one byte and at most one page,
and a full page when `bootImageSize` is a multiple of `PAGESIZE`. -/
theorem coreChannelAddress_next_page_boundary (a : Arch) (env : Env)
    (sys : SystemInformation) (entry : Nat) (regions : List MemoryRegion)
    (cores : List Nat) (h : List Event) (d : Discovered) (k : Nat) (info : CoreInfo)
    (hd : discover a env sys entry regions cores h = some d)
    (hk : d.coreInfo.get k = some info)
    (hpage : a.PAGESIZE ∣ MegaByte 4)
    (hM : sys.memorySize < a.wordMod)
    (hfit : memPerCore a sys.memorySize cores.length * k + MegaByte 4 + sys.bootImageSize
      + (a.PAGESIZE - sys.bootImageSize % a.PAGESIZE) + 4 * a.PAGESIZE ≤ a.wordMod) :
    a.PAGESIZE ∣ info.coreChannelAddress ∧
    info.bootImageAddress + info.bootImageSize < info.coreChannelAddress ∧
    (∀ x, a.PAGESIZE ∣ x → info.bootImageAddress + info.bootImageSize < x →
      info.coreChannelAddress ≤ x) ∧
    info.coreChannelAddress - (info.bootImageAddress + info.bootImageSize)
      = a.PAGESIZE - info.bootImageSize % a.PAGESIZE ∧
    0 < info.coreChannelAddress - (info.bootImageAddress + info.bootImageSize) ∧
    info.coreChannelAddress - (info.bootImageAddress + info.bootImageSize) ≤ a.PAGESIZE ∧
    (a.PAGESIZE ∣ info.bootImageSize →
      info.coreChannelAddress - (info.bootImageAddress + info.bootImageSize)
        = a.PAGESIZE) := by
  obtain ⟨_, _, rfl⟩ := discover_get a env sys entry regions cores h d k info hd hk
  have hP : 0 < a.PAGESIZE := by
    rcases Nat.eq_zero_or_pos a.PAGESIZE with h0 | h0
    · rw [h0] at hpage
      have := megaByte_four
      have := Nat.eq_zero_of_zero_dvd hpage
      omega
    · exact h0
  obtain ⟨_, _, _, e4, e5, e6, _⟩ :=
    makeCoreInfo_exact a sys entry (memPerCore a sys.memorySize cores.length) k hP hfit
  have hm : MegaByte 4 ∣ memPerCore a sys.memorySize cores.length := by
    rw [memPerCore_exact a _ _ hM]; exact Dvd.intro_left _ rfl
  have hbase : a.PAGESIZE ∣ memPerCore a sys.memorySize cores.length * k + MegaByte 4 :=
    Dvd.dvd.add (Dvd.dvd.mul_right (dvd_trans hpage hm) k) hpage
  obtain ⟨b, hb⟩ := hbase
  have hdm := Nat.div_add_mod sys.bootImageSize a.PAGESIZE
  have hml := Nat.mod_lt sys.bootImageSize hP
  have hcca : memPerCore a sys.memorySize cores.length * k + MegaByte 4 + sys.bootImageSize
      + (a.PAGESIZE - sys.bootImageSize % a.PAGESIZE)
      = a.PAGESIZE * (b + sys.bootImageSize / a.PAGESIZE + 1) := by
    rw [Nat.mul_add, Nat.mul_add, Nat.mul_one]
    omega
  rw [e4, e5, e6]
  refine ⟨?_, by omega, ?_, by omega, by omega, by omega, ?_⟩
  · rw [hcca]; exact Dvd.intro _ rfl
  · rintro x ⟨y, rfl⟩ hx
    rw [hcca]
    apply Nat.mul_le_mul_left
    have h1 : a.PAGESIZE * (b + sys.bootImageSize / a.PAGESIZE) < a.PAGESIZE * y := by
      rw [Nat.mul_add]
      omega
    have h2 := Nat.lt_of_mul_lt_mul_left h1
    omega
  · intro hdiv
    have h0 : sys.bootImageSize % a.PAGESIZE = 0 := Nat.mod_eq_zero_of_dvd hdiv
    omega

theorem coreChannelAddress_next_page_boundary_witness :
    discover intel envOk (sysMaster 10000) 1048576 sampleRegions [0, 1, 2, 3] []
        = some sampleRun ∧ sampleRun.coreInfo.get 2 = some (sampleInfo 2) ∧
      intel.PAGESIZE ∣ (sampleInfo 2).coreChannelAddress ∧
      (sampleInfo 2).bootImageAddress + (sampleInfo 2).bootImageSize
        < (sampleInfo 2).coreChannelAddress ∧
      (sampleInfo 2).coreChannelAddress
        - ((sampleInfo 2).bootImageAddress + (sampleInfo 2).bootImageSize) = 2288 :=
  have t := coreChannelAddress_next_page_boundary intel envOk (sysMaster 10000) 1048576
    sampleRegions [0, 1, 2, 3] [] sampleRun 2 (sampleInfo 2) rfl rfl
    (by decide) (by decide) (by decide)
  ⟨rfl, rfl, t.1, t.2.1, by decide⟩

/-- C2, as stated, fails: with 64 MiB shared by 16 cores every partition is
4 MiB minus one page, smaller than the 4 MiB kernel area alone, and the
channel region ends after the end of the partition; `discover` still calls `bootCore`
for core 1, which even succeeds. -/
theorem partition_too_small_counterexample :
    ∃ d info, discover intel envOk (sysMaster 10000) 1048576 sampleRegions (List.range 16) []
        = some d ∧ d.coreInfo.get 1 = some info ∧
      info.memory.size < info.kernel.size ∧
      info.memory.phys + info.memory.size
        < info.coreChannelAddress + info.coreChannelSize ∧
      (1, Result.Success) ∈ d.boots :=
  ⟨discoverBody intel envOk (sysMaster 10000) 1048576 sampleRegions (List.range 16) [],
    makeCoreInfo intel (sysMaster 10000) 1048576 (memPerCore intel (MegaByte 64) 16) 1,
    rfl, rfl, by decide, by decide, by decide⟩

/-- C2, amended: for every generated `CoreInfo`, when `memPerCore ≥ PAGESIZE`
and no address computation wraps, the partition holds its contents
(`kernel.size ≤ memory.size` and the channel region ends inside the
partition) exactly when
`4 MiB + bootImageSize + (PAGESIZE - bootImageSize % PAGESIZE) + 5 * PAGESIZE
≤ memPerCore`; `bootCore` is called with the record in either case. -/
theorem partition_holds_contents_iff (a : Arch) (env : Env)
    (sys : SystemInformation) (entry : Nat) (regions : List MemoryRegion)
    (cores : List Nat) (h : List Event) (d : Discovered) (k : Nat) (info : CoreInfo)
    (hd : discover a env sys entry regions cores h = some d)
    (hk : d.coreInfo.get k = some info)
    (hP : 0 < a.PAGESIZE)
    (hM : sys.memorySize < a.wordMod)
    (hmpc : a.PAGESIZE ≤ memPerCore a sys.memorySize cores.length)
    (hfit : memPerCore a sys.memorySize cores.length * k + MegaByte 4 + sys.bootImageSize
      + (a.PAGESIZE - sys.bootImageSize % a.PAGESIZE) + 4 * a.PAGESIZE ≤ a.wordMod) :
    ((info.kernel.size ≤ info.memory.size ∧
      info.coreChannelAddress + info.coreChannelSize
        ≤ info.memory.phys + info.memory.size) ↔
    MegaByte 4 + sys.bootImageSize + (a.PAGESIZE - sys.bootImageSize % a.PAGESIZE)
      + 5 * a.PAGESIZE ≤ memPerCore a sys.memorySize cores.length) ∧
    k ∈ d.boots.map Prod.fst := by
  obtain ⟨hmem, hk0, rfl⟩ := discover_get a env sys entry regions cores h d k info hd hk
  refine ⟨?_, by
    rw [discover_boots a env sys entry regions cores h d hd]
    exact List.mem_filter.mpr ⟨hmem, by simpa using hk0⟩⟩
  obtain ⟨e1, _, e3, _, _, e6, e7⟩ :=
    makeCoreInfo_exact a sys entry (memPerCore a sys.memorySize cores.length) k hP hfit
  have hlt : memPerCore a sys.memorySize cores.length < a.wordMod := by
    have h1 : memPerCore a sys.memorySize cores.length ≤ sys.memorySize := by
      rw [memPerCore_exact a _ _ hM]
      exact le_trans (Nat.div_mul_le_self _ _) (Nat.div_le_self _ _)
    omega
  have e8 := makeCoreInfo_memory_size a sys entry _ k hmpc hlt
  rw [e1, e3, e6, e7, e8]
  omega

theorem partition_holds_contents_iff_witness :
    discover intel envOk (sysMaster 10000) 1048576 sampleRegions [0, 1, 2, 3] []
        = some sampleRun ∧ sampleRun.coreInfo.get 3 = some (sampleInfo 3) ∧
      (sampleInfo 3).kernel.size ≤ (sampleInfo 3).memory.size ∧
      (sampleInfo 3).coreChannelAddress + (sampleInfo 3).coreChannelSize
        ≤ (sampleInfo 3).memory.phys + (sampleInfo 3).memory.size :=
  have t := partition_holds_contents_iff intel envOk (sysMaster 10000) 1048576
    sampleRegions [0, 1, 2, 3] [] sampleRun 3 (sampleInfo 3) rfl rfl
    (by decide) (by decide) (by decide) (by decide)
  ⟨rfl, rfl, t.1.mpr (by decide)⟩

/-- C10: when `memPerCore ≥ PAGESIZE` and `memPerCore * j`, `memPerCore * k`
do not wrap, the partitions `[memory.phys, memory.phys + memory.size)` that
`discover` generates for two distinct non-master ids `j ≠ k` are
`[memPerCore * k, memPerCore * k + memPerCore - PAGESIZE)`, share no address,
do not meet the master's range `[0, memPerCore)`, and for `k` below the core
count lie below the total system memory. -/
theorem partitions_disjoint (a : Arch) (env : Env)
    (sys : SystemInformation) (entry : Nat) (regions : List MemoryRegion)
    (cores : List Nat) (h : List Event) (d : Discovered) (j k : Nat) (ij ik : CoreInfo)
    (hd : discover a env sys entry regions cores h = some d)
    (hj : d.coreInfo.get j = some ij)
    (hk : d.coreInfo.get k = some ik)
    (hjk : j ≠ k)
    (hM : sys.memorySize < a.wordMod)
    (hmpc : a.PAGESIZE ≤ memPerCore a sys.memorySize cores.length)
    (hwj : memPerCore a sys.memorySize cores.length * j < a.wordMod)
    (hwk : memPerCore a sys.memorySize cores.length * k < a.wordMod) :
    ik.memory.phys = memPerCore a sys.memorySize cores.length * k ∧
    ik.memory.size = memPerCore a sys.memorySize cores.length - a.PAGESIZE ∧
    (∀ x, ¬ (ij.memory.covers x ∧ ik.memory.covers x)) ∧
    (∀ x, ik.memory.covers x → ¬ x < memPerCore a sys.memorySize cores.length) ∧
    (k < cores.length → ∀ x, ik.memory.covers x → x < sys.memorySize) := by
  obtain ⟨_, hj0, rfl⟩ := discover_get a env sys entry regions cores h d j ij hd hj
  obtain ⟨_, hk0, rfl⟩ := discover_get a env sys entry regions cores h d k ik hd hk
  have hbound : memPerCore a sys.memorySize cores.length * cores.length
      ≤ sys.memorySize := by
    rw [memPerCore_exact a _ _ hM]
    exact le_trans (Nat.mul_le_mul_right _ (Nat.div_mul_le_self _ _))
      (Nat.div_mul_le_self _ _)
  have hle : memPerCore a sys.memorySize cores.length ≤ sys.memorySize := by
    rw [memPerCore_exact a _ _ hM]
    exact le_trans (Nat.div_mul_le_self _ _) (Nat.div_le_self _ _)
  have hlt : memPerCore a sys.memorySize cores.length < a.wordMod := by omega
  have sj := makeCoreInfo_memory_size a sys entry _ j hmpc hlt
  have sk := makeCoreInfo_memory_size a sys entry _ k hmpc hlt
  have pj : (makeCoreInfo a sys entry (memPerCore a sys.memorySize cores.length) j).memory.phys
      = memPerCore a sys.memorySize cores.length * j := wrap_of_lt a hwj
  have pk : (makeCoreInfo a sys entry (memPerCore a sys.memorySize cores.length) k).memory.phys
      = memPerCore a sys.memorySize cores.length * k := wrap_of_lt a hwk
  refine ⟨pk, sk, ?_, ?_, ?_⟩
  · intro x
    simp only [Range.covers, pj, pk, sj, sk]
    rintro ⟨⟨h1, h2⟩, h3, h4⟩
    rcases Nat.lt_or_gt_of_ne hjk with hlt' | hlt'
    · have := Nat.mul_le_mul_left (memPerCore a sys.memorySize cores.length)
        (Nat.succ_le_of_lt hlt')
      rw [Nat.mul_succ] at this
      omega
    · have := Nat.mul_le_mul_left (memPerCore a sys.memorySize cores.length)
        (Nat.succ_le_of_lt hlt')
      rw [Nat.mul_succ] at this
      omega
  · intro x
    simp only [Range.covers, pk, sk]
    rintro ⟨h1, _⟩
    have := Nat.mul_le_mul_left (memPerCore a sys.memorySize cores.length)
      (Nat.succ_le_of_lt (Nat.pos_of_ne_zero hk0))
    rw [Nat.mul_one] at this
    omega
  · intro hkN x
    simp only [Range.covers, pk, sk]
    rintro ⟨_, h2⟩
    have := Nat.mul_le_mul_left (memPerCore a sys.memorySize cores.length)
      (Nat.succ_le_of_lt hkN)
    rw [Nat.mul_succ] at this
    omega

theorem partitions_disjoint_witness :
    discover intel envOk (sysMaster 10000) 1048576 sampleRegions [0, 1, 2, 3] []
        = some sampleRun ∧ sampleRun.coreInfo.get 1 = some (sampleInfo 1) ∧
      sampleRun.coreInfo.get 2 = some (sampleInfo 2) ∧
      (sampleInfo 2).memory.phys = 33554432 ∧ (sampleInfo 2).memory.size = 16773120 ∧
      (∀ x, ¬ ((sampleInfo 1).memory.covers x ∧ (sampleInfo 2).memory.covers x)) :=
  have t := partitions_disjoint intel envOk (sysMaster 10000) 1048576
    sampleRegions [0, 1, 2, 3] [] sampleRun 1 2 (sampleInfo 1) (sampleInfo 2) rfl rfl rfl
    (by decide) (by decide) (by decide) (by decide) (by decide)
  ⟨rfl, rfl, rfl, by decide, by decide, t.2.2.1⟩

/-- C5: for every behaviour of the primitives `bootCore` returns the error
kind of the first step that failed (claim or map: `OutOfMemory`; copy of
another length than requested, or unmap: `MemoryError`; boot signal:
`BootError`), and `Success` exactly when no step failed; no step follows a
failed one, so every step before a boot signal succeeded; a rejected claim is
the only step of its run; a successful run made all `3 * regions + 5` steps
and ended with the accepted boot signal. -/
theorem bootCore_returns_first_failure (a : Arch) (env : Env) (sys : SystemInformation)
    (coreId : Nat) (info : CoreInfo) (regions : List MemoryRegion) (h : List Event) :
    (bootCore a env sys coreId info regions h).1
      = firstFailure (bootCore a env sys coreId info regions h).2 ∧
    ((bootCore a env sys coreId info regions h).1 = Result.Success ↔
      ∀ e ∈ (bootCore a env sys coreId info regions h).2, e.failure = none) ∧
    (∀ pre e post, (bootCore a env sys coreId info regions h).2 = pre ++ e :: post →
      e.failure ≠ none → post = []) ∧
    (∀ pre bootInfo ret post,
      (bootCore a env sys coreId info regions h).2 = pre ++ Event.boot bootInfo ret :: post →
      ∀ e ∈ pre, e.failure = none) ∧
    (env.vmctlRemoveMem h info.memory ≠ API.Success →
      bootCore a env sys coreId info regions h
        = (Result.OutOfMemory,
            [Event.removeMem info.memory (env.vmctlRemoveMem h info.memory)])) ∧
    ((bootCore a env sys coreId info regions h).1 = Result.Success →
      (bootCore a env sys coreId info regions h).2.length = 3 * regions.length + 5 ∧
      ∃ pre, (bootCore a env sys coreId info regions h).2
        = pre ++ [Event.boot info IntelMP.Success]) := by
  obtain ⟨hs, _, hok⟩ := bootCore_shape a env sys coreId info regions h
  obtain ⟨s1, s2, s3⟩ := hs.spec
  refine ⟨s1, s3, fun pre e post heq hne => (s2 pre e post heq hne).1, ?_, ?_, hok⟩
  · intro pre bootInfo ret post heq e he
    by_contra hne
    obtain ⟨p1, p2, hp⟩ := List.append_of_mem he
    have heq2 : (bootCore a env sys coreId info regions h).2
        = p1 ++ e :: (p2 ++ Event.boot bootInfo ret :: post) := by
      rw [heq, hp]; simp
    have := (s2 p1 e _ heq2 hne).1
    simp at this
  · intro hc
    simp only [bootCore]
    rw [if_pos hc]

theorem bootCore_returns_first_failure_witness :
    (bootCore intel envShortCopy (sysMaster 10000) 1 (sampleInfo 1) [] []).1
      = firstFailure (bootCore intel envShortCopy (sysMaster 10000) 1 (sampleInfo 1) [] []).2 ∧
    (bootCore intel envShortCopy (sysMaster 10000) 1 (sampleInfo 1) [] []).1
      = Result.MemoryError ∧
    (bootCore intel envOk (sysMaster 10000) 1 (sampleInfo 1) sampleRegions []).1
      = Result.Success :=
  ⟨(bootCore_returns_first_failure intel envShortCopy (sysMaster 10000) 1 (sampleInfo 1)
    [] []).1, by decide, by decide⟩

/-- C9 on the code: when the first copy of the run stops short, `bootCore`
for core 1 returns `MemoryError` at line 165 without unmapping the window it
mapped at line 153; `discover` goes on to core 2, and after the first `Map`
of core 2 (the fifth step of the run) two windows are open. -/
theorem window_left_open_by_failed_copy :
    ∃ d, discover intel envFirstCopyShort (sysMaster 10000) 1048576 sampleRegions [0, 1, 2] []
        = some d ∧
      d.boots = [(1, Result.MemoryError), (2, Result.Success)] ∧
      openWindows (d.events.take 3) 0 = 1 ∧
      openWindows (d.events.take 5) 0 = 2 ∧
      openWindows d.events 0 = 1 :=
  ⟨discoverBody intel envFirstCopyShort (sysMaster 10000) 1048576 sampleRegions [0, 1, 2] [],
    rfl, by decide, by decide, by decide, by decide⟩

/-- C7 on the code: for the core list `[0, 2]` the loop of `discover` inserts
a record under the id 2 only, the loop of `setupChannels` runs for
`i = 1 < numCores = 2` only, finds the null pointer under 1 and dereferences
it at line 278; no channel is built for core 2. -/
theorem setupChannels_sparse_ids :
    ∃ d, discover intel envOk (sysMaster 10000) 1048576 sampleRegions [0, 2] [] = some d ∧
      d.boots = [(2, Result.Success)] ∧
      (d.coreInfo.get 2).isSome = true ∧
      d.coreInfo.get 1 = none ∧
      List.range' 1 ([0, 2].length - 1) = [1] ∧
      (setupChannels intel (sysMaster 10000) d.coreInfo [0, 2].length).isNone = true :=
  ⟨discoverBody intel envOk (sysMaster 10000) 1048576 sampleRegions [0, 2] [],
    rfl, by decide, rfl, rfl, by decide, rfl⟩

/-- C4: let core `K` see in its own system information the
`coreChannelAddress` `c` that the master stores in the record of `K`. Then
the master's `toSlave[K]` (Producer) has the data and feedback addresses of
core `K`'s `fromMaster` (Consumer), and the master's `fromSlave[K]`
(Consumer) those of core `K`'s `toMaster` (Producer). When the four pages
from `c` fit in the address space these addresses are `c + 2 * PAGESIZE`,
`c + 3 * PAGESIZE`, `c` and `c + PAGESIZE`, and the four one-page regions are
pairwise disjoint and lie in `[c, c + 4 * PAGESIZE)`. -/
theorem channel_symmetry (a : Arch) (sysM sysK : SystemInformation)
    (coreInfo slaveInfo : Index CoreInfo) (numCores slaveCores K : Nat) (info : CoreInfo)
    (m s : Result × Channels) (ts fs : MemoryChannel)
    (hM : sysM.coreId = 0) (hK : sysK.coreId = K)
    (hm : setupChannels a sysM coreInfo numCores = some m)
    (hs : setupChannels a sysK slaveInfo slaveCores = some s)
    (hinfo : coreInfo.get K = some info)
    (hc : info.coreChannelAddress = sysK.coreChannelAddress)
    (hts : m.2.toSlave.get K = some ts) (hfs : m.2.fromSlave.get K = some fs) :
    ∃ tm fm, s.2.toMaster = some tm ∧ s.2.fromMaster = some fm ∧
      ts.mode = ChannelMode.Producer ∧ fm.mode = ChannelMode.Consumer ∧
      fs.mode = ChannelMode.Consumer ∧ tm.mode = ChannelMode.Producer ∧
      ts.data = fm.data ∧ ts.feedback = fm.feedback ∧
      fs.data = tm.data ∧ fs.feedback = tm.feedback ∧
      (0 < a.PAGESIZE → sysK.coreChannelAddress + 4 * a.PAGESIZE ≤ a.wordMod →
        ts.data = sysK.coreChannelAddress + 2 * a.PAGESIZE ∧
        ts.feedback = sysK.coreChannelAddress + 3 * a.PAGESIZE ∧
        fs.data = sysK.coreChannelAddress ∧
        fs.feedback = sysK.coreChannelAddress + a.PAGESIZE ∧
        List.Pairwise (fun p q => ∀ x, ¬ (inPage a p x ∧ inPage a q x))
          [fs.data, fs.feedback, ts.data, ts.feedback] ∧
        ∀ p ∈ [fs.data, fs.feedback, ts.data, ts.feedback], ∀ x, inPage a p x →
          sysK.coreChannelAddress ≤ x ∧ x < sysK.coreChannelAddress + 4 * a.PAGESIZE) := by
  -- the master's side
  simp only [setupChannels, hM, if_true] at hm
  split at hm
  · cases hm
  · rename_i toSlave fromSlave hloop
    simp only [Option.some.injEq] at hm
    subst hm
    obtain ⟨_, h2, h3⟩ := setupLoop_spec a coreInfo _ _ _ _ hloop
    simp only at hts hfs
    rw [h2 K] at hts
    rw [h3 K] at hfs
    have hKmem : K ∈ List.range' 1 (numCores - 1) := by
      by_contra hn
      simp [hn, Index.new, Index.get] at hts
    have hK0 : K ≠ 0 := by
      have := (List.mem_range'_1.mp hKmem).1
      omega
    simp only [hKmem, if_true, hinfo, Option.map_some', Option.some.injEq] at hts hfs
    subst hts
    subst hfs
    -- the side of core `K`
    have hK' : ¬ sysK.coreId = 0 := by rw [hK]; exact hK0
    simp only [setupChannels, hK', if_false, Option.some.injEq] at hs
    subst hs
    refine ⟨_, _, rfl, rfl, rfl, rfl, rfl, rfl, ?_, ?_, ?_, ?_, ?_⟩
    · simp only [toSlaveChannel, hc]
    · simp only [toSlaveChannel, hc]
    · simp only [fromSlaveChannel, hc]
    · simp only [fromSlaveChannel, hc]
    · intro hP hfit
      have w2 : a.wrap (a.PAGESIZE * 2) = 2 * a.PAGESIZE := by
        rw [wrap_of_lt a (by omega)]; omega
      have w3 : a.wrap (a.PAGESIZE * 3) = 3 * a.PAGESIZE := by
        rw [wrap_of_lt a (by omega)]; omega
      have d2 : a.wrap (sysK.coreChannelAddress + 2 * a.PAGESIZE)
          = sysK.coreChannelAddress + 2 * a.PAGESIZE := wrap_of_lt a (by omega)
      have d3 : a.wrap (sysK.coreChannelAddress + 3 * a.PAGESIZE)
          = sysK.coreChannelAddress + 3 * a.PAGESIZE := wrap_of_lt a (by omega)
      have d1 : a.wrap (sysK.coreChannelAddress + a.PAGESIZE)
          = sysK.coreChannelAddress + a.PAGESIZE := wrap_of_lt a (by omega)
      have t1 : (toSlaveChannel a info).data = sysK.coreChannelAddress + 2 * a.PAGESIZE := by
        simp only [toSlaveChannel, hc, w2, d2]
      have t2 : (toSlaveChannel a info).feedback
          = sysK.coreChannelAddress + 3 * a.PAGESIZE := by
        simp only [toSlaveChannel, hc, w3, d3]
      have t3 : (fromSlaveChannel a info).data = sysK.coreChannelAddress := by
        simp only [fromSlaveChannel, hc]
      have t4 : (fromSlaveChannel a info).feedback
          = sysK.coreChannelAddress + a.PAGESIZE := by
        simp only [fromSlaveChannel, hc, d1]
      refine ⟨t1, t2, t3, t4, ?_, ?_⟩
      · rw [t1, t2, t3, t4]
        apply pairwise_four <;> intro x <;> unfold inPage <;> omega
      · rw [t1, t2, t3, t4]
        intro p hp x hx
        simp only [List.mem_cons, List.mem_singleton, List.not_mem_nil, or_false] at hp
        unfold inPage at hx
        rcases hp with rfl | rfl | rfl | rfl <;> omega

theorem channel_symmetry_witness :
    ∃ m s ts fs tm fm,
      setupChannels intel (sysMaster 10000) sampleRun.coreInfo 4 = some m ∧
      setupChannels intel sysSlave (Index.new 0) 0 = some s ∧
      m.2.toSlave.get 1 = some ts ∧ m.2.fromSlave.get 1 = some fs ∧
      s.2.toMaster = some tm ∧ s.2.fromMaster = some fm ∧
      ts.data = fm.data ∧ ts.feedback = fm.feedback ∧
      fs.data = tm.data ∧ fs.feedback = tm.feedback ∧
      ts.data = 20992000 ∧ ts.feedback = 20996096 ∧
      fs.data = 20983808 ∧ fs.feedback = 20987904 := by
  have hmS : (setupChannels intel (sysMaster 10000) sampleRun.coreInfo 4).isSome = true := rfl
  have hsS : (setupChannels intel sysSlave (Index.new 0) 0).isSome = true := rfl
  have hm : setupChannels intel (sysMaster 10000) sampleRun.coreInfo 4
      = some (Option.get _ hmS) := (Option.some_get hmS).symm
  have hs : setupChannels intel sysSlave (Index.new 0) 0
      = some (Option.get _ hsS) := (Option.some_get hsS).symm
  have hts : (Option.get _ hmS).2.toSlave.get 1 = some (toSlaveChannel intel (sampleInfo 1)) :=
    rfl
  have hfs : (Option.get _ hmS).2.fromSlave.get 1
      = some (fromSlaveChannel intel (sampleInfo 1)) := rfl
  obtain ⟨tm, fm, h1, h2, _, _, _, _, h3, h4, h5, h6, _⟩ :=
    channel_symmetry intel (sysMaster 10000) sysSlave sampleRun.coreInfo (Index.new 0) 4 0 1
      (sampleInfo 1) _ _ _ _ rfl rfl hm hs rfl rfl hts hfs
  exact ⟨_, _, _, _, tm, fm, hm, hs, hts, hfs, h1, h2, h3, h4, h5, h6,
    by decide, by decide, by decide, by decide⟩

end FreeNOS
